import Mathlib

/-!
Verification of the naive ArgMax reduction kernel
(`crates/burn-jit/src/kernel/reduce/naive/argmax.rs`) and of the epoch
bookkeeping of the training metric event processor
(`burn-train/src/metric/processor/full.rs`).

The input element type `EI` of the kernel is modelled as an arbitrary
linearly ordered type with a least representable element (`EI::min_value()`
in the source), which covers every integer element type exactly and the
finite floating point values under their total order.  Indices are `Nat`
(the source uses `u32`; tensor extents fit in `u32` by construction, so the
loop counter never wraps).
-/

/-- A linearly ordered element type with a least representable element,
as provided by the `Numeric::min_value()` bound used by the kernel. -/
class HasMinValue (α : Type) [LinearOrder α] where
  min_value : α
  min_value_le : ∀ x : α, min_value ≤ x

/-- The representable minimum of the element type `EI` (`EI::min_value()`). -/
def minValue (EI : Type) [LinearOrder EI] [HasMinValue EI] : EI :=
  HasMinValue.min_value

/-- `initialize_naive` from `argmax.rs`: the fresh accumulator
`(EI::min_value(), 0u32)`. -/
def initialize_naive (EI : Type) [LinearOrder EI] [HasMinValue EI] : EI × Nat :=
  (minValue EI, 0)

/-- `inner_loop_naive` from `argmax.rs`: replace the stored `(max, index)`
pair by `(current_value, i)` exactly when `current_value > max`. -/
def inner_loop_naive {EI : Type} [LinearOrder EI]
    (accumulator : EI × Nat) (current_value : EI) (i : Nat) : EI × Nat :=
  if accumulator.1 < current_value then (current_value, i) else accumulator

/-- `assign_naive` from `argmax.rs`: drop the stored maximum and write the
stored index, cast to the output element type, at the worker's absolute
position.  The cast `EO::cast_from` lives in the external `cubecl` crate and
is passed here as the function `cast_from`; `List.set` leaves the buffer
unchanged outside position `pos`. -/
def assign_naive {EI EO : Type} (cast_from : Nat → EO)
    (output : List EO) (pos : Nat) (accumulator : EI × Nat) : List EO :=
  output.set pos (cast_from accumulator.2)

/-- Modelled from the spec: the per-worker scan loop of the naive strategy
driver (the `base` kernel of `burn-jit`'s naive reduce, not under `src/`) —
starting from accumulator `acc` at loop counter `i`, step once per remaining
input element of the reduce dimension, in order. -/
def argmax_scan_aux {EI : Type} [LinearOrder EI]
    (acc : EI × Nat) (i : Nat) : List EI → EI × Nat
  | [] => acc
  | v :: rest => argmax_scan_aux (inner_loop_naive acc v i) (i + 1) rest

/-- One worker's whole ArgMax scan over its slice of the reduce dimension:
fresh accumulator, then one step per element starting at index 0. -/
def argmax_reduce {EI : Type} [LinearOrder EI] [HasMinValue EI]
    (l : List EI) : EI × Nat :=
  argmax_scan_aux (initialize_naive EI) 0 l

/-- Modelled from the spec: the scan loop instrumented with the list of
input indices it reads — the driver reads `input[(p, i)]` for each loop
counter value `i`, here `read i` with `read` the worker's view of its input
slice. -/
def argmax_loop_traced {EI : Type} [LinearOrder EI]
    (read : Nat → EI) : EI × Nat → Nat → Nat → (EI × Nat) × List Nat
  | acc, _, 0 => (acc, [])
  | acc, i, n + 1 =>
    let r := argmax_loop_traced read (inner_loop_naive acc (read i) i) (i + 1) n
    (r.1, i :: r.2)

/-- One worker of the naive strategy: scan the slice, then assign the result
at the worker's own output position. -/
def naive_worker {EI EO : Type} [LinearOrder EI] [HasMinValue EI]
    (cast_from : Nat → EO) (slice : List EI) (output : List EO)
    (pos : Nat) : List EO :=
  assign_naive cast_from output pos (argmax_reduce slice)

/-- Modelled from the spec: the parallel dispatch, one worker per output
position, applied in an arbitrary schedule `order`; `input p` is the
(read-only) slice of the input tensor scanned by the worker for position
`p`. -/
def run_workers {EI EO : Type} [LinearOrder EI] [HasMinValue EI]
    (cast_from : Nat → EO) (input : Nat → List EI)
    (output : List EO) : List Nat → List EO
  | [] => output
  | p :: order =>
    run_workers cast_from input (naive_worker cast_from (input p) output p) order

/-- Modelled from the spec: the numeric conversion of the `u32` index to an
unsigned integer output element type of bit width `w` (the `cubecl`
`cast_from`, external to this repository): truncation modulo `2 ^ w`. -/
def cast_index_unsigned (w x : Nat) : Nat :=
  x % 2 ^ w

/-- Modelled from the spec: the numeric conversion of the `u32` index to a
signed two's complement output element type of bit width `w` (the `cubecl`
`cast_from`, external to this repository). -/
def cast_index_signed (w x : Nat) : Int :=
  if x % 2 ^ w < 2 ^ (w - 1) then ((x % 2 ^ w : Nat) : Int)
  else ((x % 2 ^ w : Nat) : Int) - 2 ^ w

instance : HasMinValue (Fin 256) where
  min_value := 0
  min_value_le := fun x => Fin.zero_le x

/-!
The training metric event processor (`burn-train/src/metric/processor/full.rs`).
The four registries of metric updaters are lists over abstract updater types;
clearing one updater is an abstract function on its type, mirroring the
`clear` method of the `MetricUpdater` / `NumericMetricUpdater` trait objects.
-/

/-- Modelled from the spec: the metric store event type sent to the
`EventStoreClient` (`burn-train`'s metric store, not under `src/`); the
processor's epoch signals produce its end-of-epoch variant, which carries an
epoch number. -/
inductive StoreEvent where
  | EndEpoch : Nat → StoreEvent
deriving DecidableEq

/-- `FullEventProcessor` from `full.rs`, restricted to the state its epoch
signals touch: the four metric updater registries, plus the ordered logs of
the events this processor has forwarded to the event store client on the
training and validation channels (`client.add_event_train` /
`client.add_event_valid`). -/
structure FullEventProcessor (MT MV NT NV : Type) where
  train : List MT
  valid : List MV
  train_numeric : List NT
  valid_numeric : List NV
  client_train : List StoreEvent
  client_valid : List StoreEvent

/-- `end_epoch_train` from `full.rs`: clear every training metric updater
(plain and numeric) and forward `Event::EndEpoch(epoch + 1)` to the client's
training channel. -/
def end_epoch_train {MT MV NT NV : Type} (clear_t : MT → MT) (clear_tn : NT → NT)
    (p : FullEventProcessor MT MV NT NV) (epoch : Nat) :
    FullEventProcessor MT MV NT NV :=
  { p with
    train := p.train.map clear_t
    train_numeric := p.train_numeric.map clear_tn
    client_train := p.client_train ++ [StoreEvent.EndEpoch (epoch + 1)] }

/-- `end_epoch_valid` from `full.rs`: clear every validation metric updater
(plain and numeric) and forward `Event::EndEpoch(epoch + 1)` to the client's
validation channel. -/
def end_epoch_valid {MT MV NT NV : Type} (clear_v : MV → MV) (clear_vn : NV → NV)
    (p : FullEventProcessor MT MV NT NV) (epoch : Nat) :
    FullEventProcessor MT MV NT NV :=
  { p with
    valid := p.valid.map clear_v
    valid_numeric := p.valid_numeric.map clear_vn
    client_valid := p.client_valid ++ [StoreEvent.EndEpoch (epoch + 1)] }

/-! Helper lemmas about folded maxima and the scan. -/

theorem minValue_le {EI : Type} [LinearOrder EI] [HasMinValue EI] (x : EI) :
    minValue EI ≤ x :=
  HasMinValue.min_value_le x

theorem seed_le_foldl_max {EI : Type} [LinearOrder EI] (l : List EI) :
    ∀ b : EI, b ≤ l.foldl max b := by
  induction l with
  | nil => intro b; exact le_refl b
  | cons v rest ih =>
    intro b
    rw [List.foldl_cons]
    exact le_trans (le_max_left b v) (ih (max b v))

theorem mem_le_foldl_max {EI : Type} [LinearOrder EI] (l : List EI) :
    ∀ (b x : EI), x ∈ l → x ≤ l.foldl max b := by
  induction l with
  | nil => intro b x hx; cases hx
  | cons v rest ih =>
    intro b x hx
    rw [List.foldl_cons]
    rcases List.mem_cons.1 hx with h | h
    · subst h
      exact le_trans (le_max_right b x) (seed_le_foldl_max rest (max b x))
    · exact ih (max b v) x h

theorem foldl_max_eq_or_mem {EI : Type} [LinearOrder EI] (l : List EI) :
    ∀ b : EI, l.foldl max b = b ∨ l.foldl max b ∈ l := by
  induction l with
  | nil => intro b; exact Or.inl rfl
  | cons v rest ih =>
    intro b
    rw [List.foldl_cons]
    rcases ih (max b v) with h | h
    · rw [h]
      rcases max_choice b v with h2 | h2
      · exact Or.inl h2
      · exact Or.inr (by rw [h2]; exact List.mem_cons_self v rest)
    · exact Or.inr (List.mem_cons_of_mem v h)

theorem argmax_scan_aux_spec {EI : Type} [LinearOrder EI] (l : List EI) :
    ∀ (m : EI) (j i : Nat),
      argmax_scan_aux (m, j) i l =
        (l.foldl max m,
          if l.foldl max m ≤ m then j
          else i + l.findIdx (fun v => decide (v = l.foldl max m))) := by
  induction l with
  | nil =>
    intro m j i
    simp [argmax_scan_aux]
  | cons v rest ih =>
    intro m j i
    rw [List.foldl_cons]
    show argmax_scan_aux (inner_loop_naive (m, j) v i) (i + 1) rest = _
    by_cases hmv : m < v
    · have hmax : max m v = v := max_eq_right (le_of_lt hmv)
      rw [hmax]
      have hstep : inner_loop_naive (m, j) v i = (v, i) := by
        simp [inner_loop_naive, hmv]
      rw [hstep, ih v i (i + 1)]
      have hvle : v ≤ rest.foldl max v := seed_le_foldl_max rest v
      have hnle : ¬ rest.foldl max v ≤ m :=
        fun hc => absurd (le_trans hvle hc) (not_le_of_lt hmv)
      rw [if_neg hnle]
      by_cases hMv : rest.foldl max v ≤ v
      · have hM : rest.foldl max v = v := le_antisymm hMv hvle
        rw [if_pos hMv, List.findIdx_cons]
        have hp : decide (v = rest.foldl max v) = true := by
          rw [hM]; simp
        rw [hp]
        simp
      · rw [if_neg hMv, List.findIdx_cons]
        have hvlt : v < rest.foldl max v := lt_of_not_le hMv
        have hp : decide (v = rest.foldl max v) = false := by
          simp [ne_of_lt hvlt]
        rw [hp]
        simp only [Bool.cond_false, Prod.mk.injEq]
        exact ⟨trivial, by omega⟩
    · have hvm : v ≤ m := le_of_not_lt hmv
      have hmax : max m v = m := max_eq_left hvm
      rw [hmax]
      have hstep : inner_loop_naive (m, j) v i = (m, j) := by
        simp [inner_loop_naive, hmv]
      rw [hstep, ih m j (i + 1)]
      by_cases hMm : rest.foldl max m ≤ m
      · rw [if_pos hMm, if_pos hMm]
      · rw [if_neg hMm, if_neg hMm, List.findIdx_cons]
        have hvlt : v < rest.foldl max m :=
          lt_of_le_of_lt hvm (lt_of_not_le hMm)
        have hp : decide (v = rest.foldl max m) = false := by
          simp [ne_of_lt hvlt]
        rw [hp]
        simp only [Bool.cond_false, Prod.mk.injEq]
        exact ⟨trivial, by omega⟩

theorem argmax_reduce_spec {EI : Type} [LinearOrder EI] [HasMinValue EI]
    (l : List EI) (h : l ≠ []) :
    argmax_reduce l =
      (l.foldl max (minValue EI),
       l.findIdx (fun v => decide (v = l.foldl max (minValue EI)))) := by
  have hs := argmax_scan_aux_spec l (minValue EI) 0 0
  rw [argmax_reduce, initialize_naive, hs]
  by_cases hM : l.foldl max (minValue EI) ≤ minValue EI
  · have hMeq : l.foldl max (minValue EI) = minValue EI :=
      le_antisymm hM (minValue_le _)
    cases l with
    | nil => exact absurd rfl h
    | cons v rest =>
      rw [if_pos hM, List.findIdx_cons]
      have hvle : v ≤ List.foldl max (minValue EI) (v :: rest) :=
        mem_le_foldl_max _ _ _ (List.mem_cons_self v rest)
      have hveq : v = List.foldl max (minValue EI) (v :: rest) :=
        le_antisymm hvle (by rw [hMeq]; exact minValue_le v)
      have hp : decide (v = List.foldl max (minValue EI) (v :: rest)) = true :=
        decide_eq_true hveq
      rw [hp]
      rfl
  · rw [if_neg hM]
    rw [Nat.zero_add]

theorem foldl_max_mem {EI : Type} [LinearOrder EI] [HasMinValue EI]
    (l : List EI) (h : l ≠ []) :
    l.foldl max (minValue EI) ∈ l := by
  rcases foldl_max_eq_or_mem l (minValue EI) with he | hm
  · cases l with
    | nil => exact absurd rfl h
    | cons v rest =>
      have hv1 : v ≤ List.foldl max (minValue EI) (v :: rest) :=
        mem_le_foldl_max _ _ _ (List.mem_cons_self v rest)
      have hv2 : v = minValue EI := le_antisymm (he ▸ hv1) (minValue_le v)
      rw [he, hv2]
      exact List.mem_cons_self _ _
  · exact hm

theorem argmax_loop_traced_spec {EI : Type} [LinearOrder EI] (read : Nat → EI) :
    ∀ (n : Nat) (acc : EI × Nat) (i : Nat),
      (argmax_loop_traced read acc i n).2 = List.range' i n ∧
      (argmax_loop_traced read acc i n).1
        = argmax_scan_aux acc i ((List.range' i n).map read) := by
  intro n
  induction n with
  | zero => intro acc i; exact ⟨rfl, rfl⟩
  | succ n ih =>
    intro acc i
    have h := ih (inner_loop_naive acc (read i) i) (i + 1)
    constructor
    · show i :: (argmax_loop_traced read (inner_loop_naive acc (read i) i) (i + 1) n).2 = _
      rw [List.range'_succ, h.1]
    · show (argmax_loop_traced read (inner_loop_naive acc (read i) i) (i + 1) n).1 = _
      rw [List.range'_succ, List.map_cons]
      exact h.2

theorem getD_set_ne {EO : Type} (l : List EO) (p k : Nat) (v d : EO)
    (h : k ≠ p) :
    (l.set p v).getD k d = l.getD k d := by
  simp [List.getD_eq_getElem?_getD, List.getElem?_set_ne (Ne.symm h)]

theorem getD_set_self {EO : Type} (l : List EO) (p : Nat) (v d : EO)
    (h : p < l.length) :
    (l.set p v).getD p d = v := by
  simp [List.getD_eq_getElem?_getD, List.getElem?_set_self h]

theorem naive_worker_comm {EI EO : Type} [LinearOrder EI] [HasMinValue EI]
    (cast_from : Nat → EO) (input : Nat → List EI) (output : List EO)
    (x y : Nat) :
    naive_worker cast_from (input x) (naive_worker cast_from (input y) output y) x
      = naive_worker cast_from (input y) (naive_worker cast_from (input x) output x) y := by
  by_cases hxy : y = x
  · rw [hxy]
  · exact List.set_comm _ _ output hxy

/-! Claim theorems. -/

/-- C1: the ArgMax step replaces the stored `(max, index)` pair exactly when
the new value is strictly greater than the stored maximum, and consequently,
for every nonempty input sequence along the reduce dimension — in particular
any sequence containing a repeated maximum value — the reported index is the
lowest index at which the maximum of the sequence occurs. -/
theorem argmax_strict_step_lowest_index {EI : Type} [LinearOrder EI]
    [HasMinValue EI] (l : List EI) (h : l ≠ []) :
    (∀ (acc : EI × Nat) (v : EI) (i : Nat),
        inner_loop_naive acc v i = if acc.1 < v then (v, i) else acc) ∧
    (argmax_reduce l).2
      = l.findIdx (fun v => decide (v = l.foldl max (minValue EI))) := by
  refine ⟨fun acc v i => rfl, ?_⟩
  rw [argmax_reduce_spec l h]

/-- Witness for C1 on the spec's example sequence [3, 7, 7, 2]: the reported
index is the lowest position of the repeated maximum 7, namely 1. -/
theorem argmax_strict_step_lowest_index_witness :
    (([3, 7, 7, 2] : List (Fin 256)) ≠ []) ∧
    (argmax_reduce ([3, 7, 7, 2] : List (Fin 256))).2
      = ([3, 7, 7, 2] : List (Fin 256)).findIdx
          (fun v =>
            decide (v = ([3, 7, 7, 2] : List (Fin 256)).foldl max
              (minValue (Fin 256)))) :=
  ⟨by decide,
   (argmax_strict_step_lowest_index ([3, 7, 7, 2] : List (Fin 256))
      (by decide)).2⟩

/-- C2: the accumulator is seeded as the pair (representable minimum of the
input element type, index 0), and the seed is such that the input overrides
it: stepping the fresh accumulator with the first scanned input (any value
`v`, at position 0) always leaves the accumulator holding `(v, 0)`. -/
theorem initialize_seed_overridden {EI : Type} [LinearOrder EI]
    [HasMinValue EI] :
    initialize_naive EI = (minValue EI, 0) ∧
    ∀ v : EI, inner_loop_naive (initialize_naive EI) v 0 = (v, 0) := by
  refine ⟨rfl, fun v => ?_⟩
  by_cases hv : minValue EI < v
  · simp [initialize_naive, inner_loop_naive, hv]
  · have hve : v = minValue EI := le_antisymm (le_of_not_lt hv) (minValue_le v)
    simp [initialize_naive, inner_loop_naive, hv, hve]

/-- C3: finalization discards the stored maximum (the written buffer does not
depend on it) and writes the stored index cast to the output element type;
for any index within the output type's representable range the cast equals
the unsigned index exactly, with no sign ambiguity, for unsigned and signed
integer output element types of any width. -/
theorem assign_discards_value_cast_exact {EI EO : Type} [LinearOrder EI]
    (cast_from : Nat → EO) (output : List EO) (pos : Nat) (m m' : EI)
    (idx w iu : Nat) (hw : 0 < w) (hu : iu < 2 ^ w) (hs : idx < 2 ^ (w - 1)) :
    assign_naive cast_from output pos ((m, idx) : EI × Nat)
        = output.set pos (cast_from idx) ∧
    assign_naive cast_from output pos ((m, idx) : EI × Nat)
        = assign_naive cast_from output pos ((m', idx) : EI × Nat) ∧
    cast_index_unsigned w iu = iu ∧
    cast_index_signed w idx = idx ∧
    0 ≤ cast_index_signed w idx := by
  have hpow : (2 : Nat) ^ (w - 1) ≤ 2 ^ w :=
    Nat.pow_le_pow_right (by omega) (by omega)
  have hmod : idx % 2 ^ w = idx := Nat.mod_eq_of_lt (lt_of_lt_of_le hs hpow)
  have h1 : cast_index_signed w idx = (idx : Int) := by
    unfold cast_index_signed
    rw [hmod, if_pos hs]
  refine ⟨rfl, rfl, Nat.mod_eq_of_lt hu, by rw [h1], by
    rw [h1]; exact Int.natCast_nonneg idx⟩

/-- Witness for C3 at output width 8, with indices 200 (unsigned case) and 7
(signed case). -/
theorem assign_discards_value_cast_exact_witness :
    ((0 : Nat) < 8 ∧ (200 : Nat) < 2 ^ 8 ∧ (7 : Nat) < 2 ^ (8 - 1)) ∧
    (assign_naive id ([0, 0] : List Nat) 0 (((3 : Fin 256), 7) : Fin 256 × Nat)
        = ([0, 0] : List Nat).set 0 (id 7) ∧
     assign_naive id ([0, 0] : List Nat) 0 (((3 : Fin 256), 7) : Fin 256 × Nat)
        = assign_naive id ([0, 0] : List Nat) 0
            (((5 : Fin 256), 7) : Fin 256 × Nat) ∧
     cast_index_unsigned 8 200 = 200 ∧
     cast_index_signed 8 7 = 7 ∧
     0 ≤ cast_index_signed 8 7) :=
  ⟨⟨by decide, by decide, by decide⟩,
   assign_discards_value_cast_exact id ([0, 0] : List Nat) 0 (3 : Fin 256)
     (5 : Fin 256) 7 8 200 (by decide) (by decide) (by decide)⟩

/-- C4: with a size-0 reduce dimension the accumulator is never updated after
its creation: the scan of the empty slice returns the sentinel pair
(representable minimum, index 0), and the worker writes the cast of index 0
at its own output position rather than raising an error; the unsigned cast of
index 0 is the output value 0 at every width. -/
theorem empty_reduce_dim_sentinel {EI EO : Type} [LinearOrder EI]
    [HasMinValue EI] (cast_from : Nat → EO) (output : List EO) (pos : Nat) :
    argmax_reduce ([] : List EI) = (minValue EI, 0) ∧
    naive_worker cast_from ([] : List EI) output pos
        = output.set pos (cast_from 0) ∧
    ∀ w : Nat, cast_index_unsigned w 0 = 0 :=
  ⟨rfl, rfl, fun _ => Nat.zero_mod _⟩

/-- C5: for every input and reduce dimension, one worker of the naive
strategy reads exactly the `n = shape_reduce_dim` input elements at loop
indices `0 .. n-1` (its read trace is exactly `List.range n`, of length `n`),
writes exactly one output element at its own absolute position, and leaves
every other output position unchanged (the buffer keeps its length and its
other entries). -/
theorem naive_worker_frame {EI EO : Type} [LinearOrder EI] [HasMinValue EI]
    (read : Nat → EI) (n : Nat) (cast_from : Nat → EO) (slice : List EI)
    (output : List EO) (pos k : Nat) (d : EO)
    (hpos : pos < output.length) (hk : k ≠ pos) :
    (argmax_loop_traced read (initialize_naive EI) 0 n).2 = List.range n ∧
    (List.range n).length = n ∧
    (argmax_loop_traced read (initialize_naive EI) 0 n).1
        = argmax_reduce ((List.range n).map read) ∧
    (naive_worker cast_from slice output pos).length = output.length ∧
    (naive_worker cast_from slice output pos).getD pos d
        = cast_from (argmax_reduce slice).2 ∧
    (naive_worker cast_from slice output pos).getD k d = output.getD k d := by
  have ht := argmax_loop_traced_spec read n (initialize_naive EI) 0
  refine ⟨?_, List.length_range n, ?_, List.length_set _ _ _, ?_, ?_⟩
  · rw [ht.1, List.range_eq_range']
  · rw [ht.2, List.range_eq_range']
    rfl
  · exact getD_set_self output pos _ d hpos
  · exact getD_set_ne output pos k _ d hk

/-- Witness for C5: a worker over the slice [3, 7] writing position 0 of the
two-element buffer [5, 6]. -/
theorem naive_worker_frame_witness :
    ((0 : Nat) < ([5, 6] : List Nat).length ∧ (1 : Nat) ≠ 0) ∧
    ((argmax_loop_traced (fun _ => (0 : Fin 256)) (initialize_naive (Fin 256))
        0 2).2 = List.range 2 ∧
     (List.range 2).length = 2 ∧
     (argmax_loop_traced (fun _ => (0 : Fin 256)) (initialize_naive (Fin 256))
        0 2).1 = argmax_reduce ((List.range 2).map (fun _ => (0 : Fin 256))) ∧
     (naive_worker id ([3, 7] : List (Fin 256)) ([5, 6] : List Nat) 0).length
        = ([5, 6] : List Nat).length ∧
     (naive_worker id ([3, 7] : List (Fin 256)) ([5, 6] : List Nat) 0).getD 0 0
        = id (argmax_reduce ([3, 7] : List (Fin 256))).2 ∧
     (naive_worker id ([3, 7] : List (Fin 256)) ([5, 6] : List Nat) 0).getD 1 0
        = ([5, 6] : List Nat).getD 1 0) :=
  ⟨⟨by decide, by decide⟩,
   naive_worker_frame (fun _ => (0 : Fin 256)) 2 id ([3, 7] : List (Fin 256))
     ([5, 6] : List Nat) 0 1 0 (by decide) (by decide)⟩

/-- C6: the naive strategy is deterministic — the final output buffer does
not depend on the schedule in which the per-position workers are applied:
any permutation of the worker order yields the identical (bit-for-bit equal)
output, and in particular two invocations with the same input tensor, reduce
slices and output buffer agree. -/
theorem run_workers_deterministic {EI EO : Type} [LinearOrder EI]
    [HasMinValue EI] (cast_from : Nat → EO) (input : Nat → List EI)
    (output : List EO) (o1 o2 : List Nat) (h : o1.Perm o2) :
    run_workers cast_from input output o1
      = run_workers cast_from input output o2 := by
  induction h generalizing output with
  | nil => rfl
  | cons x h12 ih => exact ih (naive_worker cast_from (input x) output x)
  | swap x y l =>
    exact congrArg (fun out => run_workers cast_from input out l)
      (naive_worker_comm cast_from input output x y)
  | trans h1 h2 ih1 ih2 => exact (ih1 output).trans (ih2 output)

/-- Witness for C6: the two workers of a two-position output run in either
order produce the same buffer. -/
theorem run_workers_deterministic_witness :
    ([0, 1] : List Nat).Perm [1, 0] ∧
    run_workers id (fun _ => ([3, 7] : List (Fin 256))) ([9, 9] : List Nat)
        [0, 1]
      = run_workers id (fun _ => ([3, 7] : List (Fin 256))) ([9, 9] : List Nat)
          [1, 0] :=
  ⟨List.Perm.swap 1 0 [],
   run_workers_deterministic id (fun _ => ([3, 7] : List (Fin 256)))
     ([9, 9] : List Nat) [0, 1] [1, 0] (List.Perm.swap 1 0 [])⟩

/-- C7: the conversion from the finalized accumulator index to the output
element type is total — it is defined for every accumulator value and always
returns a value inside the output type's representable range: below `2 ^ w`
for an unsigned width-`w` output, and inside `[-2 ^ (w-1), 2 ^ (w-1))` for a
signed width-`w` output. -/
theorem cast_total_in_range (w x : Nat) (hw : 0 < w) :
    cast_index_unsigned w x < 2 ^ w ∧
    -(2 ^ (w - 1) : Int) ≤ cast_index_signed w x ∧
    cast_index_signed w x < 2 ^ (w - 1) := by
  have hpos : 0 < 2 ^ w := Nat.two_pow_pos w
  have hr : x % 2 ^ w < 2 ^ w := Nat.mod_lt x hpos
  have h2 : (2 : Int) ^ w = 2 ^ (w - 1) * 2 := by
    rw [← pow_succ]
    congr 1
    omega
  have hup : ((x % 2 ^ w : Nat) : Int) < 2 ^ w := by exact_mod_cast hr
  have hhalf : (0 : Int) < 2 ^ (w - 1) := by positivity
  refine ⟨hr, ?_⟩
  unfold cast_index_signed
  by_cases hc : x % 2 ^ w < 2 ^ (w - 1)
  · rw [if_pos hc]
    have hnn : (0 : Int) ≤ ((x % 2 ^ w : Nat) : Int) := Int.natCast_nonneg _
    have hlt : ((x % 2 ^ w : Nat) : Int) < 2 ^ (w - 1) := by exact_mod_cast hc
    exact ⟨by linarith, hlt⟩
  · rw [if_neg hc]
    have hge : (2 : Int) ^ (w - 1) ≤ ((x % 2 ^ w : Nat) : Int) := by
      exact_mod_cast le_of_not_lt hc
    exact ⟨by linarith, by linarith⟩

/-- Witness for C7 at width 8 and out-of-range index 300. -/
theorem cast_total_in_range_witness :
    (0 : Nat) < 8 ∧
    (cast_index_unsigned 8 300 < 2 ^ 8 ∧
     -(2 ^ (8 - 1) : Int) ≤ cast_index_signed 8 300 ∧
     cast_index_signed 8 300 < 2 ^ (8 - 1)) :=
  ⟨by decide, cast_total_in_range 8 300 (by decide)⟩

/-- C8: processing an end-of-epoch signal for either phase forwards to the
event store client an end-of-epoch event carrying `epoch + 1`, which is a
different event from one carrying `epoch`. -/
theorem end_epoch_forwards_succ {MT MV NT NV : Type}
    (clear_t : MT → MT) (clear_tn : NT → NT)
    (clear_v : MV → MV) (clear_vn : NV → NV)
    (p : FullEventProcessor MT MV NT NV) (epoch : Nat) :
    (end_epoch_train clear_t clear_tn p epoch).client_train
        = p.client_train ++ [StoreEvent.EndEpoch (epoch + 1)] ∧
    (end_epoch_valid clear_v clear_vn p epoch).client_valid
        = p.client_valid ++ [StoreEvent.EndEpoch (epoch + 1)] ∧
    StoreEvent.EndEpoch (epoch + 1) ≠ StoreEvent.EndEpoch epoch := by
  refine ⟨rfl, rfl, fun hcontra => ?_⟩
  injection hcontra with h1
  omega

/-- C9: the end-of-epoch signal for the training phase clears every
registered training metric updater, plain and numeric, and leaves both
validation registries unchanged; symmetrically, the validation signal clears
only the validation registries and leaves the training ones unchanged. -/
theorem end_epoch_clears_own_phase_only {MT MV NT NV : Type}
    (clear_t : MT → MT) (clear_tn : NT → NT)
    (clear_v : MV → MV) (clear_vn : NV → NV)
    (p : FullEventProcessor MT MV NT NV) (epoch : Nat) :
    (end_epoch_train clear_t clear_tn p epoch).train = p.train.map clear_t ∧
    (end_epoch_train clear_t clear_tn p epoch).train_numeric
        = p.train_numeric.map clear_tn ∧
    (end_epoch_train clear_t clear_tn p epoch).valid = p.valid ∧
    (end_epoch_train clear_t clear_tn p epoch).valid_numeric
        = p.valid_numeric ∧
    (end_epoch_valid clear_v clear_vn p epoch).valid = p.valid.map clear_v ∧
    (end_epoch_valid clear_v clear_vn p epoch).valid_numeric
        = p.valid_numeric.map clear_vn ∧
    (end_epoch_valid clear_v clear_vn p epoch).train = p.train ∧
    (end_epoch_valid clear_v clear_vn p epoch).train_numeric
        = p.train_numeric :=
  ⟨rfl, rfl, rfl, rfl, rfl, rfl, rfl, rfl⟩

/-- C10: for every nonempty reduce dimension, the index reported by ArgMax is
strictly less than the dimension size, so it names a valid position of the
scanned input sequence. -/
theorem argmax_index_lt_length {EI : Type} [LinearOrder EI] [HasMinValue EI]
    (l : List EI) (h : l ≠ []) :
    (argmax_reduce l).2 < l.length := by
  have hmem := foldl_max_mem l h
  rw [argmax_reduce_spec l h]
  exact List.findIdx_lt_length_of_exists ⟨_, hmem, by simp⟩

/-- Witness for C10 on the singleton slice [5]: the reported index 0 is below
the dimension size 1. -/
theorem argmax_index_lt_length_witness :
    (([5] : List (Fin 256)) ≠ []) ∧
    (argmax_reduce ([5] : List (Fin 256))).2
      < ([5] : List (Fin 256)).length :=
  ⟨by decide, argmax_index_lt_length ([5] : List (Fin 256)) (by decide)⟩
